import Mathlib

/-!
Shallow embedding of the schedule-validation and execution core of the
Energy-Grid-and-Battery-Management-System repository.

Embedded source files:
* `cloud_backend/utils/validation.py` (`ScheduleValidator` with its default
  constants `MIN_RATE_KW = 0`, `MAX_RATE_KW = 1000`, `VALID_MODES = {1, 2}`,
  `MIN_INTERVAL_MINUTES = 1`, `MAX_INTERVAL_HOURS = 24`; the two module-level
  convenience functions construct the validator with exactly these defaults).
* `device_fleet/utils/validation.py` (`validate_schedule_locally`).
* `device_fleet/utils/schedule_executor.py` (`ScheduleExecutor`).
* `device_fleet/daemon/battery_daemon.py` (`_process_schedule`,
  `_check_and_execute`, `_execute_schedule_loop`).

Modelling conventions:
* Python exceptions are modelled with `Except PyErr`; a `try/except ValueError`
  is `catchVE`, which lets `TypeError` propagate, exactly as CPython does.
* `datetime` values are modelled by `Dtm`: an awareness flag (naive vs
  timezone-aware) and an instant in microseconds (for aware values the UTC
  offset is already applied, matching how Python compares aware datetimes).
  Comparing or subtracting a naive and an aware datetime raises `TypeError`
  in Python; `dtmLe`/`dtmLt`/`dtmGt`/`dtmSub` model that.  Python `==` on
  mixed naive/aware datetimes returns `False` without raising, which is what
  structural equality of `Dtm` gives.
* Timestamp strings are modelled by their lexical shape `TsStr`: either an
  ISO-8601 body with an optional fractional-second part and one of the three
  tails (literal `Z`, an explicit numeric UTC offset, or nothing), or
  `garbage`, a string matching none of the `strptime` formats.  This is the
  granularity at which the five format strings of `_parse_timestamp`
  discriminate inputs.  Note that in `"%Y-%m-%dT%H:%M:%SZ"` the `Z` is a
  literal, so that format yields a NAIVE datetime, while `%z` yields an
  aware one (CPython `%z` also accepts a literal `Z`, but the `Z` formats
  are tried first).
* Python dict entries are modelled by `EntryDict` with one `Option` field per
  required key; values of the wrong runtime type get their own constructors
  (`TVal.nonStr`, `MVal.other`, `RVal.nonNumStr`, ...).  `float(x)` is
  `pyFloat` (its `ValueError`/`TypeError` are caught jointly at the only call
  site, so it returns `Option`).  Rates are `Rat`; none of the verified
  properties depends on binary floating-point rounding.
* `sorted(parsed_times, key=...)` is `sortByStart`, a stable insertion sort
  whose comparisons raise like Python's: on the inputs used by the theorems
  below (either all keys mutually comparable, or a two-element incomparable
  list) it agrees with CPython's stable sort, including its raising
  behaviour.
-/

set_option maxRecDepth 8192

/-- Python exception classes that the embedded code can raise. -/
inductive PyErr
  | valueError
  | typeError
  deriving DecidableEq, Repr

instance {ε α : Type} [DecidableEq ε] [DecidableEq α] : DecidableEq (Except ε α) := fun x y =>
  match x, y with
  | .ok a, .ok b =>
    if h : a = b then isTrue (by rw [h]) else isFalse (by intro hh; cases hh; exact h rfl)
  | .error a, .error b =>
    if h : a = b then isTrue (by rw [h]) else isFalse (by intro hh; cases hh; exact h rfl)
  | .ok _, .error _ => isFalse (by intro hh; cases hh)
  | .error _, .ok _ => isFalse (by intro hh; cases hh)

/-- Tail of an ISO-8601 timestamp string: a literal `Z`, an explicit numeric
UTC offset (in minutes), or no tail at all. -/
inductive TSuffix
  | z
  | utcOffset (minutes : Int)
  | plain
  deriving DecidableEq, Repr

/-- Whether the tail is an explicit numeric offset. -/
def TSuffix.isOffset : TSuffix → Bool
  | .utcOffset _ => true
  | _ => false

/-- Lexical shape of a timestamp string: an ISO-8601 body (`core` = the
`%Y-%m-%dT%H:%M:%S` part as seconds, `frac` = the optional `.%f` part in
microseconds) followed by a `TSuffix`, or `garbage` (a string matching none
of the accepted shapes). -/
inductive TsStr
  | iso (core : Int) (frac : Option Nat) (sfx : TSuffix)
  | garbage
  deriving DecidableEq, Repr

/-- A Python `datetime`: awareness flag plus instant in microseconds
(UTC-normalised when aware). -/
structure Dtm where
  aware : Bool
  us : Int
  deriving DecidableEq, Repr

/-- Microsecond instant of an ISO body plus optional fractional part. -/
def instantUs (core : Int) (frac : Option Nat) : Int :=
  core * 1000000 + (frac.getD 0 : Nat)

/-- Python `a <= b` on datetimes: `TypeError` when one side is naive and the
other aware. -/
def dtmLe (a b : Dtm) : Except PyErr Bool :=
  if a.aware = b.aware then .ok (decide (a.us ≤ b.us)) else .error .typeError

/-- Python `a < b` on datetimes. -/
def dtmLt (a b : Dtm) : Except PyErr Bool :=
  if a.aware = b.aware then .ok (decide (a.us < b.us)) else .error .typeError

/-- Python `a > b` on datetimes. -/
def dtmGt (a b : Dtm) : Except PyErr Bool :=
  if a.aware = b.aware then .ok (decide (b.us < a.us)) else .error .typeError

/-- Python `a - b` on datetimes, in microseconds (`timedelta` up to the
fixed `total_seconds()` scaling). -/
def dtmSub (a b : Dtm) : Except PyErr Int :=
  if a.aware = b.aware then .ok (a.us - b.us) else .error .typeError

/-- A `try/except ValueError` around `x`: `ValueError` is swallowed to
`none`, any other exception propagates. -/
def catchVE {α : Type} (x : Except PyErr α) : Except PyErr (Option α) :=
  match x with
  | .ok a => .ok (some a)
  | .error .valueError => .ok none
  | .error e => .error e

/-- Value found under `start_time`/`end_time`: a timestamp string or a
non-string value (on which `strptime` raises `TypeError`). -/
inductive TVal
  | s (t : TsStr)
  | nonStr
  deriving DecidableEq, Repr

/-- Value found under `mode`: an `int` or something that is not an `int`
and compares unequal to both `1` and `2`. -/
inductive MVal
  | int (n : Int)
  | other
  deriving DecidableEq, Repr

/-- Value found under `rate_kw`: an `int`, a `float`, a numeric string, a
non-numeric string, or some other object `float()` rejects. -/
inductive RVal
  | int (n : Int)
  | float (q : Rat)
  | numStr (q : Rat)
  | nonNumStr
  | other
  deriving DecidableEq, Repr

/-- A schedule-entry dictionary; `none` means the key is absent. -/
structure EntryDict where
  start_time : Option TVal
  end_time : Option TVal
  mode : Option MVal
  rate_kw : Option RVal
  deriving DecidableEq, Repr

/-- An element of the `schedule` list: a dict or a non-dict value. -/
inductive SchedItem
  | dict (e : EntryDict)
  | nondict
  deriving DecidableEq, Repr

/-- The four required fields of an entry. -/
inductive FieldName
  | startTime
  | endTime
  | mode
  | rateKw
  deriving DecidableEq, Repr

/-- Per-entry validation error, without the `Entry {i}: ` leading text that
`validate_schedule_entry` attaches to the message. -/
inductive EErr
  | mustBeDict
  | missingField (f : FieldName)
  | invalidTimestamp
  | startNotBeforeEnd
  | intervalTooShort
  | intervalTooLong
  | modeNotInt
  | modeInvalid (got : Int)
  | rateNotNumber
  | rateTooLow (got : Rat)
  | rateTooHigh (got : Rat)
  deriving DecidableEq, Repr

/-- Structured rendering of the strings the validators put in their error
lists; each constructor records exactly the data interpolated into the
corresponding message. -/
inductive VError
  | entry (i : Option Nat) (e : EErr)
  | scheduleEmpty
  | timestampReparse (i : Nat)
  | overlap (i j : Nat)
  | gapWarning (i j : Nat) (gapUs : Int)
  | overlapWarning (i j : Nat) (overlapUs : Int)
  | localBadMode (i : Nat)
  | localBadRate (i : Nat)
  | dropped (i : Nat) (e : Option EErr)
  deriving DecidableEq, Repr

/-- `ScheduleValidator._parse_timestamp`: try the five `strptime` formats in
order; raise `ValueError` when none matches, `TypeError` on a non-string. -/
def parseTimestamp : TVal → Except PyErr Dtm
  | .nonStr => .error .typeError
  | .s .garbage => .error .valueError
  | .s (.iso core frac sfx) =>
    match frac, sfx with
    | none, .z => .ok ⟨false, instantUs core none⟩
    | none, .utcOffset m => .ok ⟨true, instantUs core none - m * 60000000⟩
    | none, .plain => .ok ⟨false, instantUs core none⟩
    | some u, .z => .ok ⟨false, instantUs core (some u)⟩
    | some u, .plain => .ok ⟨false, instantUs core (some u)⟩
    | some _, .utcOffset _ => .error .valueError

/-- `ScheduleValidator._validate_timestamps` with the index stripped from the
message (see `validateScheduleEntry` for how the index is attached): parse
both stamps catching only `ValueError`, then check ordering and the
`[1 minute, 24 hours]` duration bounds.  The `>=` comparison and the
subtraction can raise `TypeError` on a naive/aware mix, which the source
does not catch. -/
def validateTimestampsCore (st et : TVal) : Except PyErr (Bool × Option EErr) := do
  let pr ← catchVE (do
    let a ← parseTimestamp st
    let b ← parseTimestamp et
    pure (a, b))
  match pr with
  | none => pure (false, some .invalidTimestamp)
  | some (sdt, edt) => do
    let ge ← dtmLe edt sdt
    if ge then
      pure (false, some .startNotBeforeEnd)
    else do
      let durUs ← dtmSub edt sdt
      if durUs < 60000000 then
        pure (false, some .intervalTooShort)
      else if durUs > 86400000000 then
        pure (false, some .intervalTooLong)
      else
        pure (true, none)

/-- `ScheduleValidator._validate_mode` with the default `VALID_MODES = {1, 2}`. -/
def validateModeCore : MVal → Bool × Option EErr
  | .int n => if n = 1 ∨ n = 2 then (true, none) else (false, some (.modeInvalid n))
  | .other => (false, some .modeNotInt)

/-- Python `float(x)` at the single call site that catches both `ValueError`
and `TypeError`: `none` means the conversion raised. -/
def pyFloat : RVal → Option Rat
  | .int n => some (n : Rat)
  | .float q => some q
  | .numStr q => some q
  | .nonNumStr => none
  | .other => none

/-- `ScheduleValidator._validate_rate` with the default bounds `[0, 1000]`. -/
def validateRateCore (r : RVal) : Bool × Option EErr :=
  match pyFloat r with
  | none => (false, some .rateNotNumber)
  | some q =>
    if q < 0 then (false, some (.rateTooLow q))
    else if q > 1000 then (false, some (.rateTooHigh q))
    else (true, none)

/-- `ScheduleValidator.validate_schedule_entry`, index-independent part: the
required-field check in source order, then timestamps, mode, rate, each
short-circuiting.  All success paths of the source return `(True, None)`. -/
def validateScheduleEntryCore (item : SchedItem) : Except PyErr (Bool × Option EErr) :=
  match item with
  | .nondict => pure (false, some .mustBeDict)
  | .dict e =>
    match e.start_time, e.end_time, e.mode, e.rate_kw with
    | none, _, _, _ => pure (false, some (.missingField .startTime))
    | some _, none, _, _ => pure (false, some (.missingField .endTime))
    | some _, some _, none, _ => pure (false, some (.missingField .mode))
    | some _, some _, some _, none => pure (false, some (.missingField .rateKw))
    | some st, some et, some m, some r => do
      let (ok1, e1) ← validateTimestampsCore st et
      if ok1 then
        let (ok2, e2) := validateModeCore m
        if ok2 then
          let (ok3, e3) := validateRateCore r
          if ok3 then pure (true, none) else pure (false, e3)
        else pure (false, e2)
      else pure (false, e1)

/-- `ScheduleValidator.validate_schedule_entry`: the optional index `i` only
feeds the `Entry {i}: ` text of the message, which `VError.entry` records. -/
def validateScheduleEntry (item : SchedItem) (i : Option Nat) :
    Except PyErr (Bool × Option VError) :=
  (validateScheduleEntryCore item).map (fun p => (p.1, p.2.map (VError.entry i)))

/-- One `(start, end, index)` triple of `parsed_times`. -/
structure PTime where
  s : Dtm
  e : Dtm
  idx : Nat
  deriving DecidableEq, Repr

/-- The two timestamp values of a dict entry, when present. -/
def entryTimes : SchedItem → Option (TVal × TVal)
  | .dict e =>
    match e.start_time, e.end_time with
    | some st, some et => some (st, et)
    | _, _ => none
  | .nondict => none

/-- The per-entry loop of `validate_schedule`: validate each entry, collect
errors, and re-parse the timestamps of valid entries into `parsed_times`
(catching only `ValueError`).  The `entryTimes = none` branch is unreachable
for a valid entry. -/
def validateLoop : List SchedItem → Nat → Except PyErr (List VError × List PTime)
  | [], _ => pure ([], [])
  | item :: rest, i => do
    let (valid, err) ← validateScheduleEntry item (some i)
    if valid then
      match entryTimes item with
      | some (st, et) => do
        let pr ← catchVE (do
          let a ← parseTimestamp st
          let b ← parseTimestamp et
          pure (a, b))
        let (errs, pts) ← validateLoop rest (i + 1)
        match pr with
        | some (a, b) => pure (errs, (⟨a, b, i⟩ : PTime) :: pts)
        | none => pure (VError.timestampReparse i :: errs, pts)
      | none => validateLoop rest (i + 1)
    else do
      let (errs, pts) ← validateLoop rest (i + 1)
      pure (err.toList ++ errs, pts)

/-- Stable insertion of `x` into an already-sorted accumulator, comparing
start instants exactly as Python's sort compares keys (raising on a
naive/aware mix). -/
def insertByStart (x : PTime) : List PTime → Except PyErr (List PTime)
  | [] => pure [x]
  | y :: ys => do
    let lt ← dtmLt x.s y.s
    if lt then pure (x :: y :: ys)
    else do
      let r ← insertByStart x ys
      pure (y :: r)

/-- `sorted(parsed_times, key=lambda x: x[0])`: stable sort by start instant. -/
def sortByStart (l : List PTime) : Except PyErr (List PTime) :=
  l.foldlM (fun acc x => insertByStart x acc) []

/-- The adjacent-pair sweep of `_check_overlaps` over the sorted list:
report `end[i] > start[i+1]` with the original entry indices. -/
def overlapSweep : List PTime → Except PyErr (List VError)
  | p :: q :: rest => do
    let g ← dtmGt p.e q.s
    let tail ← overlapSweep (q :: rest)
    pure (if g then VError.overlap p.idx q.idx :: tail else tail)
  | _ => pure []

/-- `ScheduleValidator._check_overlaps`. -/
def checkOverlaps (pts : List PTime) : Except PyErr (List VError) := do
  let sorted ← sortByStart pts
  overlapSweep sorted

/-- The adjacent-pair sweep of `_check_sequential`: `end[i] != start[i+1]`
(Python `!=` on datetimes never raises) is reported as a gap or an overlap
warning carrying the signed duration. -/
def sequentialSweep : List PTime → Except PyErr (List VError)
  | p :: q :: rest => do
    if p.e = q.s then
      sequentialSweep (q :: rest)
    else do
      let gapUs ← dtmSub q.s p.e
      if gapUs > 0 then
        let tail ← sequentialSweep (q :: rest)
        pure (VError.gapWarning p.idx q.idx gapUs :: tail)
      else do
        let ov ← dtmSub p.e q.s
        let tail ← sequentialSweep (q :: rest)
        pure (VError.overlapWarning p.idx q.idx ov :: tail)
  | _ => pure []

/-- `ScheduleValidator._check_sequential` (it sorts again, independently). -/
def checkSequential (pts : List PTime) : Except PyErr (List VError) := do
  let sorted ← sortByStart pts
  sequentialSweep sorted

/-- `ScheduleValidator.validate_schedule`.  The input is typed as a list, so
the `not isinstance(schedule, list)` branch has no counterpart.  Note the
source extends the single `errors` list with the `_check_sequential`
warnings and then returns `len(errors) == 0`. -/
def validateSchedule (schedule : List SchedItem) : Except PyErr (Bool × List VError) := do
  if schedule.isEmpty then
    pure (false, [VError.scheduleEmpty])
  else do
    let (errs, pts) ← validateLoop schedule 0
    if errs.isEmpty then do
      let oerrs ← checkOverlaps pts
      let serrs ← checkSequential pts
      let all := oerrs ++ serrs
      pure (all.isEmpty, all)
    else
      pure (false, errs)

/-- The per-entry loop of `clean_schedule`: keep entries that pass
`validate_schedule_entry`, turn the rest into `Entry {i} invalid: ...`
warnings (the recorded payload is the entry's own error). -/
def cleanLoop : List SchedItem → Nat → Except PyErr (List SchedItem × List VError)
  | [], _ => pure ([], [])
  | item :: rest, i => do
    let (valid, err) ← validateScheduleEntryCore item
    let (c, w) ← cleanLoop rest (i + 1)
    if valid then pure (item :: c, w)
    else pure (c, VError.dropped i err :: w)

/-- `ScheduleValidator.clean_schedule`: drop individually-invalid entries,
then (when anything is left) re-validate the survivors as a set and append
any set-level errors to the warnings. -/
def cleanSchedule (schedule : List SchedItem) : Except PyErr (List SchedItem × List VError) := do
  let (cleaned, warns) ← cleanLoop schedule 0
  if cleaned.isEmpty then
    pure (cleaned, warns)
  else do
    let (valid, errs) ← validateSchedule cleaned
    if valid then pure (cleaned, warns)
    else pure (cleaned, warns ++ errs)

/-! Device-side local validation (`device_fleet/utils/validation.py`). -/

/-- The local `mode not in [1, 2]` membership test.  (`MVal.other` stands
for a value comparing unequal to both `1` and `2`; Python equality quirks
such as `True == 1` or `1.0 == 1` are outside the per-claim inputs.) -/
def localModeOk : MVal → Bool
  | .int n => decide (n = 1 ∨ n = 2)
  | .other => false

/-- The local rate test: `isinstance(rate, (int, float))` and `0 <= rate <= 1000`. -/
def localRateOk : RVal → Bool
  | .int n => decide (0 ≤ n ∧ n ≤ 1000)
  | .float q => decide (0 ≤ q ∧ q ≤ 1000)
  | _ => false

/-- The per-entry checks of `validate_schedule_locally` for entry `i`, in
source order: dict check (with `continue`), required-field loop, then the
mode and rate checks, which run only when the field is present.  Timestamps
are never parsed or compared locally. -/
def localEntryErrors (item : SchedItem) (i : Nat) : List VError :=
  match item with
  | .nondict => [VError.entry (some i) .mustBeDict]
  | .dict e =>
    (if e.start_time.isNone then [VError.entry (some i) (.missingField .startTime)] else [])
    ++ (if e.end_time.isNone then [VError.entry (some i) (.missingField .endTime)] else [])
    ++ (if e.mode.isNone then [VError.entry (some i) (.missingField .mode)] else [])
    ++ (if e.rate_kw.isNone then [VError.entry (some i) (.missingField .rateKw)] else [])
    ++ (match e.mode with
        | some m => if localModeOk m then [] else [VError.localBadMode i]
        | none => [])
    ++ (match e.rate_kw with
        | some r => if localRateOk r then [] else [VError.localBadRate i]
        | none => [])

/-- The entry loop of `validate_schedule_locally`. -/
def localLoop : List SchedItem → Nat → List VError
  | [], _ => []
  | item :: rest, i => localEntryErrors item i ++ localLoop rest (i + 1)

/-- `validate_schedule_locally`: empty-schedule rejection, then the purely
structural per-entry checks; `ok = (errors is empty)`. -/
def validateScheduleLocally (schedule : List SchedItem) : Bool × List VError :=
  if schedule.isEmpty then
    (false, [VError.scheduleEmpty])
  else
    let errs := localLoop schedule 0
    (errs.isEmpty, errs)

/-! The daemon (`device_fleet/daemon/battery_daemon.py`). -/

/-- The agent state touched by `_process_schedule`: the in-memory
`current_schedule` and the row the local store marks `active`
(`_store_schedule` deactivates the old row and inserts the new one; the
success path of its transaction is modelled). -/
structure AgentState where
  current_schedule : Option (List SchedItem)
  stored_active : Option (List SchedItem)
  deriving DecidableEq, Repr

/-- `BatteryDaemon._process_schedule`: validate locally; on failure log and
return leaving all state untouched; on success set `current_schedule` and
store the schedule as the active one. -/
def processSchedule (st : AgentState) (schedule : List SchedItem) : AgentState :=
  if (validateScheduleLocally schedule).1 then
    { current_schedule := some schedule, stored_active := some schedule }
  else
    st

/-- An entry as `_check_and_execute` reads it: two timestamp strings plus
the command payload (the daemon indexes these keys directly). -/
structure DEntry where
  start_time : TsStr
  end_time : TsStr
  mode : Int
  rate_kw : Rat
  deriving DecidableEq, Repr

/-- `datetime.fromisoformat(s.replace("Z", "+00:00"))`: `fromisoformat`
accepts every ISO shape (fractional seconds with an offset included) and
yields an aware datetime exactly when the string carries an offset — which,
after the `replace`, includes a trailing `Z`.  Raises `ValueError` on a
non-ISO string. -/
def fromisoformatZ : TsStr → Except PyErr Dtm
  | .garbage => .error .valueError
  | .iso core frac sfx =>
    match sfx with
    | .z => .ok ⟨true, instantUs core frac⟩
    | .utcOffset m => .ok ⟨true, instantUs core frac - m * 60000000⟩
    | .plain => .ok ⟨false, instantUs core frac⟩

/-- The scan of `_check_and_execute` starting at entry index `i`: parse both
stamps of each entry, and on the first entry whose `[start, end)` window
contains `now` (a chained comparison, so `now < end` is evaluated only when
`start <= now` holds) dispatch it and `break`.  Returns the dispatched
`(index, entry)` pair, if any. -/
def checkAndExecuteFrom (now : Dtm) : Nat → List DEntry → Except PyErr (Option (Nat × DEntry))
  | _, [] => pure none
  | i, e :: rest => do
    let sd ← fromisoformatZ e.start_time
    let ed ← fromisoformatZ e.end_time
    let c1 ← dtmLe sd now
    if c1 then do
      let c2 ← dtmLt now ed
      if c2 then pure (some (i, e))
      else checkAndExecuteFrom now (i + 1) rest
    else checkAndExecuteFrom now (i + 1) rest

/-- `BatteryDaemon._check_and_execute` for a non-empty current schedule;
`now` is `datetime.utcnow()`, hence naive in the theorems below. -/
def checkAndExecute (now : Dtm) (sched : List DEntry) : Except PyErr (Option (Nat × DEntry)) :=
  checkAndExecuteFrom now 0 sched

/-- The `_execute_schedule_loop` tick loop over a fixed current schedule:
one `_check_and_execute` per tick instant, collecting the index dispatched
to the Executor at each tick.  The daemon keeps no record of which entries
have already been dispatched, so nothing carries over between ticks. -/
def executeScheduleTicks (sched : List DEntry) : List Dtm → Except PyErr (List Nat)
  | [] => pure []
  | t :: ts => do
    let r ← checkAndExecute t sched
    let rest ← executeScheduleTicks sched ts
    pure ((r.map Prod.fst).toList ++ rest)

/-! The executor (`device_fleet/utils/schedule_executor.py`). -/

/-- `ScheduleExecutor._execute_discharge`: 2% efficiency loss. -/
def executeDischarge (rate_kw : Rat) : Rat :=
  rate_kw * (98 / 100)

/-- `ScheduleExecutor._execute_charge`: 3% efficiency loss. -/
def executeCharge (rate_kw : Rat) : Rat :=
  rate_kw * (97 / 100)

/-- The body of the `try` block of `execute_command`: dispatch on mode,
raising `ValueError` for a mode other than `1` or `2`. -/
def executeCommandBody (mode : Int) (rate_kw : Rat) : Except PyErr Rat :=
  if mode = 1 then .ok (executeDischarge rate_kw)
  else if mode = 2 then .ok (executeCharge rate_kw)
  else .error .valueError

/-- `ScheduleExecutor.execute_command`: the `except Exception` handler turns
any raised exception into `(False, None)`; success returns
`(True, actual_rate)`. -/
def executeCommand (mode : Int) (rate_kw : Rat) : Bool × Option Rat :=
  match executeCommandBody mode rate_kw with
  | .ok r => (true, some r)
  | .error _ => (false, none)

/-! Concrete sample data used by several theorems below. -/

/-- A timestamp string of the `...Z` shape (parsed by the first `strptime`
format, hence naive). -/
def tvalZ (c : Int) : TVal := TVal.s (TsStr.iso c none TSuffix.z)

/-- A well-typed entry dict with `...Z` timestamps at the given instants. -/
def entryZ (s e m : Int) (r : Rat) : SchedItem :=
  SchedItem.dict ⟨some (tvalZ s), some (tvalZ e), some (MVal.int m), some (RVal.float r)⟩

/-- Two individually valid, non-overlapping entries with a one-hour gap
between them (`00:00–00:30` and `01:30–02:30`). -/
def gapSchedule : List SchedItem := [entryZ 0 1800 1 100, entryZ 5400 9000 2 50]

/-- An entry whose start parses naive (`Z` is a literal in the first format)
and whose end parses aware (explicit `+00:00` offset). -/
def mixedEntry : SchedItem :=
  SchedItem.dict ⟨some (tvalZ 0),
    some (TVal.s (TsStr.iso 3600 none (TSuffix.utcOffset 0))),
    some (MVal.int 1), some (RVal.float 100)⟩

/-- A structurally well-typed entry whose start is after its end. -/
def invertedSched : List SchedItem := [entryZ 3600 0 1 100]

/-- An agent state holding a valid ACTIVE schedule. -/
def prevState : AgentState :=
  ⟨some [entryZ 0 1800 1 100], some [entryZ 0 1800 1 100]⟩

/-- A daemon entry with naive timestamps spanning `[0s, 120s)`. -/
def tickEntry : DEntry :=
  ⟨TsStr.iso 0 none TSuffix.plain, TsStr.iso 120 none TSuffix.plain, 1, 100⟩

/-- Claim C1: the spec says a gap between consecutive entries is reported
only as a non-fatal advisory and `validate_schedule` still returns
`ok = true`.  In the source, `validate_schedule` extends the single `errors`
list with the `_check_sequential` warnings and returns `len(errors) == 0`,
so a pure gap makes `ok = false` — contradicting `_check_sequential`'s own
docstring, which says the gap report is a warning, not an error.  At the
concrete gap schedule the result is `ok = false` with the gap advisory as
the only reported item. -/
theorem validate_schedule_gap_blocks_acceptance :
    validateSchedule gapSchedule = .ok (false, [VError.gapWarning 0 1 3600000000]) := by
  decide

/-- Claim C3: the spec requires each entry to be dispatched at most once per
schedule activation, with dispatch-tracking state reset on replacement.  The
daemon keeps no dispatched-tracking state at all: with one active entry
spanning `[0s, 120s)` and two 30-second ticks inside that window, the entry
at index 0 is dispatched at both ticks. -/
theorem tick_loop_redispatches_entry :
    executeScheduleTicks [tickEntry] [⟨false, 0⟩, ⟨false, 30000000⟩] = .ok [0, 0] ∧
    2 ≤ List.count 0 [0, 0] := by
  decide

/-- Claim C4: the spec says `validate_schedule` always returns a structured
`(ok, errors)` pair, including for schedules mixing timezone-aware and
timezone-naive accepted timestamp variants.  On an entry whose start parses
naive (trailing `Z`, matched by the literal-`Z` format) and whose end parses
aware (explicit offset), the uncaught `start_dt >= end_dt` comparison raises
`TypeError`, which propagates out of `validate_schedule`. -/
theorem validate_schedule_raises_type_error_on_mixed_awareness :
    validateSchedule [mixedEntry] = .error PyErr.typeError := by
  decide

/-- Claim C5 counterexample: the combination fractional seconds + explicit
numeric UTC offset is an accepted-variant combination per the claim, but no
`strptime` format of `_parse_timestamp` has both `.%f` and `%z`, so parsing
`2025-12-25T00:00:00.500000+00:00` raises `ValueError` instead of returning
an instant. -/
theorem parse_timestamp_rejects_frac_with_offset :
    parseTimestamp (TVal.s (TsStr.iso 0 (some 500000) (TSuffix.utcOffset 0))) =
      .error PyErr.valueError := by
  decide

/-- Claim C6 counterexample: a schedule whose only entry has inverted
start/end — a temporal error, as the cloud validator confirms — passes
`validate_schedule_locally` (which checks no temporal property), so
`_process_schedule` accepts it and replaces both the in-memory
`current_schedule` and the stored active schedule instead of keeping the
previous ACTIVE schedule in force. -/
theorem temporal_error_replaces_active_schedule :
    validateSchedule invertedSched =
      .ok (false, [VError.entry (some 0) EErr.startNotBeforeEnd]) ∧
    processSchedule prevState invertedSched ≠ prevState ∧
    (processSchedule prevState invertedSched).current_schedule = some invertedSched ∧
    (processSchedule prevState invertedSched).stored_active = some invertedSched := by
  decide

/-- Claim C9: `execute_command` converts every exception of the underlying
control call (including the `ValueError` raised for a mode outside `{1, 2}`)
into `(success = false, actual_rate = none)`, returns `(true, actual)` on
success, and the actual rate differs from the requested rate whenever the
requested rate is nonzero, so callers must not assume equality. -/
theorem execute_command_absorbs_failures (mode : Int) (rate_kw : Rat) :
    (∀ err, executeCommandBody mode rate_kw = .error err →
      executeCommand mode rate_kw = (false, none)) ∧
    (∀ r, executeCommandBody mode rate_kw = .ok r →
      executeCommand mode rate_kw = (true, some r)) ∧
    (mode ≠ 1 → mode ≠ 2 → executeCommand mode rate_kw = (false, none)) ∧
    ((mode = 1 ∨ mode = 2) → ∃ r, executeCommand mode rate_kw = (true, some r) ∧
      (rate_kw ≠ 0 → r ≠ rate_kw)) := by
  refine ⟨?_, ?_, ?_, ?_⟩
  · intro err h
    simp only [executeCommand, h]
  · intro r h
    simp only [executeCommand, h]
  · intro h1 h2
    simp only [executeCommand, executeCommandBody, if_neg h1, if_neg h2]
  · intro hm
    rcases hm with hm | hm
    · refine ⟨executeDischarge rate_kw, ?_, ?_⟩
      · subst hm; rfl
      · intro h0 heq
        have h1 : rate_kw * (98 / 100) = rate_kw * 1 := by
          simpa [executeDischarge] using heq
        have h2 : (98 / 100 : Rat) = 1 := mul_left_cancel₀ h0 h1
        norm_num at h2
    · refine ⟨executeCharge rate_kw, ?_, ?_⟩
      · subst hm; rfl
      · intro h0 heq
        have h1 : rate_kw * (97 / 100) = rate_kw * 1 := by
          simpa [executeCharge] using heq
        have h2 : (97 / 100 : Rat) = 1 := mul_left_cancel₀ h0 h1
        norm_num at h2

/-- Witness for the executor theorem at mode 3 (failure absorbed) and at
mode 1 with a 100 kW request (success, actual rate differs). -/
theorem execute_command_absorbs_failures_witness :
    executeCommand 3 100 = (false, none) ∧
    ∃ r, executeCommand 1 100 = (true, some r) ∧ ((100 : Rat) ≠ 0 → r ≠ 100) := by
  refine ⟨?_, ?_⟩
  · exact (execute_command_absorbs_failures 3 100).2.2.1 (by decide) (by decide)
  · exact (execute_command_absorbs_failures 1 100).2.2.2 (Or.inl rfl)

/-- Claim C5 (amended): `_parse_timestamp` accepts exactly five shapes —
plain, trailing `Z`, explicit offset, fractional seconds, and fractional
seconds with trailing `Z`.  The sixth combination, fractional seconds with
an explicit numeric offset, matches no format and raises `ValueError`, as
does any string matching none of the shapes; a `ValueError` while parsing a
timestamp of an entry makes that entry fail validation with an
invalid-timestamp error. -/
theorem parse_timestamp_accepted_variants :
    (∀ (c : Int) (f : Option Nat) (sfx : TSuffix),
      ((f.isSome && sfx.isOffset) = false →
        ∃ d, parseTimestamp (TVal.s (TsStr.iso c f sfx)) = .ok d) ∧
      ((f.isSome && sfx.isOffset) = true →
        parseTimestamp (TVal.s (TsStr.iso c f sfx)) = .error PyErr.valueError)) ∧
    parseTimestamp (TVal.s TsStr.garbage) = .error PyErr.valueError ∧
    (∀ (st et : TVal) (m : MVal) (r : RVal),
      parseTimestamp st = .error PyErr.valueError →
      validateScheduleEntry (SchedItem.dict ⟨some st, some et, some m, some r⟩) (some 0) =
        .ok (false, some (VError.entry (some 0) EErr.invalidTimestamp))) := by
  refine ⟨?_, rfl, ?_⟩
  · intro c f sfx
    constructor
    · intro h
      cases f <;> cases sfx <;> simp_all [TSuffix.isOffset, parseTimestamp]
    · intro h
      cases f <;> cases sfx <;> simp_all [TSuffix.isOffset, parseTimestamp]
  · intro st et m r h
    simp [validateScheduleEntry, validateScheduleEntryCore, validateTimestampsCore,
      catchVE, h, Except.map, bind, Except.bind, pure, Except.pure]

/-- Witness for the amended timestamp-variant theorem: an accepted
fractional-seconds-with-`Z` shape parses, the fractional-seconds-with-offset
shape raises, and an unparseable start stamp yields the entry-level
invalid-timestamp error. -/
theorem parse_timestamp_accepted_variants_witness :
    (∃ d, parseTimestamp (TVal.s (TsStr.iso 0 (some 500000) TSuffix.z)) = .ok d) ∧
    parseTimestamp (TVal.s (TsStr.iso 0 (some 1) (TSuffix.utcOffset 60))) =
      .error PyErr.valueError ∧
    validateScheduleEntry
        (SchedItem.dict ⟨some (TVal.s TsStr.garbage), some (tvalZ 0),
          some (MVal.int 1), some (RVal.float 1)⟩) (some 0) =
      .ok (false, some (VError.entry (some 0) EErr.invalidTimestamp)) := by
  refine ⟨?_, ?_, ?_⟩
  · exact (parse_timestamp_accepted_variants.1 0 (some 500000) TSuffix.z).1 (by decide)
  · exact (parse_timestamp_accepted_variants.1 0 (some 1) (TSuffix.utcOffset 60)).2 (by decide)
  · exact parse_timestamp_accepted_variants.2.2 (TVal.s TsStr.garbage) (tvalZ 0)
      (MVal.int 1) (RVal.float 1) (by decide)

/-- Structural validity of one entry in the local validator's sense: a dict
with all four fields present, a mode passing the `in [1, 2]` test, and a
numeric rate in `[0, 1000]`.  Exactly the properties whose failure
`validate_schedule_locally` reports. -/
def entryStructOk (item : SchedItem) : Bool :=
  match item with
  | .nondict => false
  | .dict e =>
    e.start_time.isSome && e.end_time.isSome &&
    (match e.mode with
     | some m => localModeOk m
     | none => false) &&
    (match e.rate_kw with
     | some r => localRateOk r
     | none => false)

/-- A structurally valid entry produces no local errors, at any index. -/
theorem localEntryErrors_eq_nil (item : SchedItem) (i : Nat)
    (h : entryStructOk item = true) : localEntryErrors item i = [] := by
  cases item with
  | nondict => simp [entryStructOk] at h
  | dict e =>
    simp only [entryStructOk, Bool.and_eq_true] at h
    obtain ⟨⟨⟨hs, he⟩, hm⟩, hr⟩ := h
    cases hst : e.start_time with
    | none => rw [hst] at hs; simp at hs
    | some st =>
      cases het : e.end_time with
      | none => rw [het] at he; simp at he
      | some et =>
        cases hmo : e.mode with
        | none => rw [hmo] at hm; simp at hm
        | some m =>
          cases hra : e.rate_kw with
          | none => rw [hra] at hr; simp at hr
          | some r =>
            rw [hmo] at hm
            rw [hra] at hr
            simp [localEntryErrors, hst, het, hmo, hra]
            exact ⟨hm, hr⟩

/-- The local loop over structurally valid entries produces no errors. -/
theorem localLoop_eq_nil (l : List SchedItem) (i : Nat)
    (h : ∀ item ∈ l, entryStructOk item = true) : localLoop l i = [] := by
  induction l generalizing i with
  | nil => rfl
  | cons x rest ih =>
    simp only [localLoop]
    rw [localEntryErrors_eq_nil x i (h x (List.mem_cons_self x rest)),
      ih (i + 1) (fun it hit => h it (List.mem_cons_of_mem x hit))]
    rfl

/-- Claim C6 (amended): the device-local validation checks only structural
properties (dict shape, field presence, mode membership, numeric rate
range) — so a rejected submission leaves both the in-memory
`current_schedule` and the stored active schedule unchanged, while a
non-empty schedule of structurally valid entries is always accepted and
replaces the active schedule, regardless of any temporal error (inverted
start/end, out-of-bounds duration, overlaps) in its timestamps. -/
theorem process_schedule_rejects_only_structural_errors
    (st : AgentState) (sched : List SchedItem) :
    ((validateScheduleLocally sched).1 = false → processSchedule st sched = st) ∧
    (sched ≠ [] → (∀ item ∈ sched, entryStructOk item = true) →
      processSchedule st sched = ⟨some sched, some sched⟩) := by
  constructor
  · intro h
    simp [processSchedule, h]
  · intro hne hall
    have hempty : sched.isEmpty = false := by
      cases sched with
      | nil => exact absurd rfl hne
      | cons a l => rfl
    have hloop : localLoop sched 0 = [] := localLoop_eq_nil sched 0 hall
    have hv : (validateScheduleLocally sched).1 = true := by
      simp [validateScheduleLocally, hempty, hloop]
    simp [processSchedule, hv]

/-- Witness for the amended local-rejection theorem: the empty schedule is
rejected leaving the state unchanged, and the structurally valid
inverted-times schedule replaces the active schedule. -/
theorem process_schedule_rejects_only_structural_errors_witness :
    processSchedule prevState [] = prevState ∧
    processSchedule prevState invertedSched = ⟨some invertedSched, some invertedSched⟩ := by
  constructor
  · exact (process_schedule_rejects_only_structural_errors prevState []).1 (by decide)
  · exact (process_schedule_rejects_only_structural_errors prevState invertedSched).2
      (by decide) (by decide)

/-- Whether `_check_and_execute` would find `now` inside this entry's
`[start, end)` window: both stamps parse and the chained comparison holds,
awareness agreeing with `now` so that no comparison raises. -/
def entryActive (now : Dtm) (e : DEntry) : Bool :=
  match fromisoformatZ e.start_time, fromisoformatZ e.end_time with
  | .ok sd, .ok ed =>
    decide (sd.aware = now.aware ∧ ed.aware = now.aware ∧ sd.us ≤ now.us ∧ now.us < ed.us)
  | _, _ => false

/-- Both stamps of the entry parse to naive datetimes (no `Z`, no offset),
hence are comparable with the naive `datetime.utcnow()`. -/
def parsesNaive (e : DEntry) : Bool :=
  match fromisoformatZ e.start_time, fromisoformatZ e.end_time with
  | .ok sd, .ok ed => decide (sd.aware = false ∧ ed.aware = false)
  | _, _ => false

/-- Scan helper: starting at absolute index `k`, the scan returns the first
window containing `now` (every earlier entry's window does not), or `none`
when no window contains it. -/
theorem checkAndExecuteFrom_first_match (nowUs : Int) :
    ∀ (l : List DEntry) (k : Nat), (∀ e ∈ l, parsesNaive e = true) →
    ∃ res, checkAndExecuteFrom ⟨false, nowUs⟩ k l = .ok res ∧
      (res = none → ∀ j e, l.get? j = some e → entryActive ⟨false, nowUs⟩ e = false) ∧
      (∀ i e, res = some (i, e) → ∃ j, i = k + j ∧ l.get? j = some e ∧
        entryActive ⟨false, nowUs⟩ e = true ∧
        ∀ j2 e2, j2 < j → l.get? j2 = some e2 → entryActive ⟨false, nowUs⟩ e2 = false) := by
  intro l
  induction l with
  | nil =>
    intro k _
    refine ⟨none, rfl, ?_, ?_⟩
    · intro _ j e hj
      simp at hj
    · intro i e h
      simp at h
  | cons x rest ih =>
    intro k h
    have hx := h x (List.mem_cons_self x rest)
    have hrest : ∀ e ∈ rest, parsesNaive e = true :=
      fun e he => h e (List.mem_cons_of_mem x he)
    obtain ⟨sd, hs⟩ : ∃ sd, fromisoformatZ x.start_time = .ok sd := by
      unfold parsesNaive at hx
      cases hs : fromisoformatZ x.start_time with
      | ok sd => exact ⟨sd, rfl⟩
      | error e => rw [hs] at hx; simp at hx
    obtain ⟨ed, he⟩ : ∃ ed, fromisoformatZ x.end_time = .ok ed := by
      unfold parsesNaive at hx
      rw [hs] at hx
      cases he : fromisoformatZ x.end_time with
      | ok ed => exact ⟨ed, rfl⟩
      | error e => rw [he] at hx; simp at hx
    have haw : sd.aware = false ∧ ed.aware = false := by
      unfold parsesNaive at hx
      rw [hs, he] at hx
      exact of_decide_eq_true hx
    have hactive : entryActive ⟨false, nowUs⟩ x =
        decide (sd.us ≤ nowUs ∧ nowUs < ed.us) := by
      unfold entryActive
      rw [hs, he]
      simp [haw.1, haw.2]
    have hstep : checkAndExecuteFrom ⟨false, nowUs⟩ k (x :: rest) =
        (if sd.us ≤ nowUs then
          (if nowUs < ed.us then pure (some (k, x))
           else checkAndExecuteFrom ⟨false, nowUs⟩ (k + 1) rest)
         else checkAndExecuteFrom ⟨false, nowUs⟩ (k + 1) rest) := by
      simp only [checkAndExecuteFrom, hs, he, dtmLe, dtmLt, haw.1, haw.2,
        bind, Except.bind]
      by_cases h1 : sd.us ≤ nowUs
      · by_cases h2 : nowUs < ed.us
        · simp [h1, h2]
        · simp [h1, h2]
      · simp [h1]
    by_cases h1 : sd.us ≤ nowUs
    · by_cases h2 : nowUs < ed.us
      · refine ⟨some (k, x), ?_, ?_, ?_⟩
        · rw [hstep]; simp [h1, h2]; rfl
        · intro hcon; cases hcon
        · intro i e hie
          injection hie with hpair
          obtain ⟨hik, hxe⟩ := Prod.mk.inj hpair
          subst hik; subst hxe
          refine ⟨0, rfl, rfl, ?_, ?_⟩
          · rw [hactive]; exact decide_eq_true ⟨h1, h2⟩
          · intro j2 e2 hj2
            omega
      · obtain ⟨res, hres, hnone, hsome⟩ := ih (k + 1) hrest
        refine ⟨res, ?_, ?_, ?_⟩
        · rw [hstep]; simp [h1, h2]; exact hres
        · intro hr j e hj
          cases j with
          | zero =>
            injection hj with hj
            subst hj
            rw [hactive]
            simp [h2]
          | succ j =>
            exact hnone hr j e hj
        · intro i e hie
          obtain ⟨j, hij, hget, hact, hearlier⟩ := hsome i e hie
          refine ⟨j + 1, by omega, hget, hact, ?_⟩
          intro j2 e2 hj2 hget2
          cases j2 with
          | zero =>
            injection hget2 with hget2
            subst hget2
            rw [hactive]
            simp [h2]
          | succ j2 =>
            exact hearlier j2 e2 (by omega) hget2
    · obtain ⟨res, hres, hnone, hsome⟩ := ih (k + 1) hrest
      refine ⟨res, ?_, ?_, ?_⟩
      · rw [hstep]; simp [h1]; exact hres
      · intro hr j e hj
        cases j with
        | zero =>
          injection hj with hj
          subst hj
          rw [hactive]
          simp [h1]
        | succ j =>
          exact hnone hr j e hj
      · intro i e hie
        obtain ⟨j, hij, hget, hact, hearlier⟩ := hsome i e hie
        refine ⟨j + 1, by omega, hget, hact, ?_⟩
        intro j2 e2 hj2 hget2
        cases j2 with
        | zero =>
          injection hget2 with hget2
          subst hget2
          rw [hactive]
          simp [h1]
        | succ j2 =>
          exact hearlier j2 e2 (by omega) hget2

/-- Claim C10: on a tick at naive time `now`, over a schedule whose entries
all carry naive-parsing timestamps, `_check_and_execute` dispatches at most
one entry — the lowest-indexed one whose `[start, end)` window contains
`now` — and stops scanning immediately after it; when no window contains
`now`, nothing is dispatched. -/
theorem check_and_execute_dispatches_first_active (nowUs : Int) (sched : List DEntry)
    (h : ∀ e ∈ sched, parsesNaive e = true) :
    ∃ res, checkAndExecute ⟨false, nowUs⟩ sched = .ok res ∧
      (res = none → ∀ j e, sched.get? j = some e → entryActive ⟨false, nowUs⟩ e = false) ∧
      (∀ i e, res = some (i, e) → sched.get? i = some e ∧
        entryActive ⟨false, nowUs⟩ e = true ∧
        ∀ j e2, j < i → sched.get? j = some e2 → entryActive ⟨false, nowUs⟩ e2 = false) := by
  obtain ⟨res, hres, hnone, hsome⟩ := checkAndExecuteFrom_first_match nowUs sched 0 h
  refine ⟨res, hres, hnone, ?_⟩
  intro i e hie
  obtain ⟨j, hij, hget, hact, hearlier⟩ := hsome i e hie
  have hji : j = i := by omega
  subst hji
  exact ⟨hget, hact, fun j2 e2 hj2 hget2 => hearlier j2 e2 hj2 hget2⟩

/-- Claim C7: a single entry with all four fields present, parseable
timestamps with `start < end` (comparable, i.e. of equal awareness),
duration within `[1 minute, 24 hours]`, mode in `{1, 2}` and a numeric rate
in `[0, 1000]` makes `validate_schedule([entry])` return `ok = true` with no
errors. -/
theorem validate_schedule_accepts_valid_single_entry
    (e : EntryDict) (st et : TVal) (m : Int) (r : RVal) (sd ed : Dtm) (q : Rat)
    (hfs : e.start_time = some st) (hfe : e.end_time = some et)
    (hfm : e.mode = some (MVal.int m)) (hfr : e.rate_kw = some r)
    (hps : parseTimestamp st = .ok sd) (hpe : parseTimestamp et = .ok ed)
    (haw : sd.aware = ed.aware) (hlt : sd.us < ed.us)
    (hmin : 60000000 ≤ ed.us - sd.us) (hmax : ed.us - sd.us ≤ 86400000000)
    (hmode : m = 1 ∨ m = 2)
    (hq : pyFloat r = some q) (hq0 : 0 ≤ q) (hq1 : q ≤ 1000) :
    validateSchedule [SchedItem.dict e] = .ok (true, []) := by
  have h1 : ¬ (ed.us ≤ sd.us) := not_le.mpr hlt
  have h2 : ¬ (ed.us - sd.us < 60000000) := by omega
  have h3 : ¬ (ed.us - sd.us > 86400000000) := by omega
  have hts : validateTimestampsCore st et = .ok (true, none) := by
    simp only [validateTimestampsCore, hps, hpe, catchVE, dtmLe, dtmSub,
      bind, Except.bind, pure, Except.pure]
    rw [← haw]
    simp [h1, h2, h3]
  have hmo : validateModeCore (MVal.int m) = (true, none) := by
    rcases hmode with h | h <;> subst h <;> decide
  have hra : validateRateCore r = (true, none) := by
    simp [validateRateCore, hq, not_lt.mpr hq0, not_lt.mpr hq1]
  have hcore : validateScheduleEntryCore (SchedItem.dict e) = .ok (true, none) := by
    simp only [validateScheduleEntryCore, hfs, hfe, hfm, hfr, hts, hmo, hra,
      bind, Except.bind, pure, Except.pure, if_pos]
  have hloop : validateLoop [SchedItem.dict e] 0 =
      .ok ([], [(⟨sd, ed, 0⟩ : PTime)]) := by
    simp only [validateLoop, validateScheduleEntry, hcore, Except.map,
      entryTimes, hfs, hfe, hps, hpe, catchVE,
      bind, Except.bind, pure, Except.pure, Option.map]
    rfl
  simp only [validateSchedule, List.isEmpty_cons, hloop, checkOverlaps,
    checkSequential, sortByStart, List.foldlM, insertByStart, overlapSweep,
    sequentialSweep, bind, Except.bind, pure, Except.pure]
  rfl

/-- Witness for the valid-single-entry theorem at the concrete entry
`00:00–00:30 Z, mode 1, 100 kW`. -/
theorem validate_schedule_accepts_valid_single_entry_witness :
    validateSchedule [entryZ 0 1800 1 100] = .ok (true, []) :=
  validate_schedule_accepts_valid_single_entry
    ⟨some (tvalZ 0), some (tvalZ 1800), some (MVal.int 1), some (RVal.float 100)⟩
    (tvalZ 0) (tvalZ 1800) 1 (RVal.float 100) ⟨false, 0⟩ ⟨false, 1800000000⟩ 100
    rfl rfl rfl rfl (by decide) (by decide) rfl (by decide)
    (by decide) (by decide) (Or.inl rfl) (by decide) (by decide) (by decide)

/-- Every success of `validate_schedule_entry` is literally `(True, None)`:
no success path carries an error message. -/
theorem core_true_oe_none (item : SchedItem) (oe : Option EErr)
    (h : validateScheduleEntryCore item = .ok (true, oe)) : oe = none := by
  cases item with
  | nondict => simp [validateScheduleEntryCore, pure, Except.pure] at h
  | dict e =>
    obtain ⟨fs, fe, fm, fr⟩ := e
    cases fs with
    | none => simp [validateScheduleEntryCore, pure, Except.pure] at h
    | some st =>
    cases fe with
    | none => simp [validateScheduleEntryCore, pure, Except.pure] at h
    | some et =>
    cases fm with
    | none => simp [validateScheduleEntryCore, pure, Except.pure] at h
    | some m =>
    cases fr with
    | none => simp [validateScheduleEntryCore, pure, Except.pure] at h
    | some r =>
      simp only [validateScheduleEntryCore, bind, Except.bind] at h
      cases hts : validateTimestampsCore st et with
      | error err => rw [hts] at h; simp at h
      | ok p =>
        obtain ⟨b1, e1⟩ := p
        rw [hts] at h
        cases b1 with
        | false => simp [pure, Except.pure] at h
        | true =>
          rcases hmv : validateModeCore m with ⟨b2, e2⟩
          rw [hmv] at h
          cases b2 with
          | false => simp [pure, Except.pure] at h
          | true =>
            rcases hrv : validateRateCore r with ⟨b3, e3⟩
            rw [hrv] at h
            cases b3 with
            | false => simp [pure, Except.pure] at h
            | true =>
              simp [pure, Except.pure] at h
              exact h.symm

/-- Every entry kept by the clean loop passed `validate_schedule_entry`. -/
theorem cleanLoop_kept :
    ∀ (l : List SchedItem) (i : Nat) (c : List SchedItem) (w : List VError),
    cleanLoop l i = .ok (c, w) →
    ∀ item ∈ c, ∃ oe, validateScheduleEntryCore item = .ok (true, oe) := by
  intro l
  induction l with
  | nil =>
    intro i c w h item hm
    simp only [cleanLoop, pure, Except.pure] at h
    obtain ⟨hc, _⟩ := Prod.mk.inj (Except.ok.inj h)
    subst hc
    simp at hm
  | cons x rest ih =>
    intro i c w h item hm
    simp only [cleanLoop, bind, Except.bind] at h
    cases hcx : validateScheduleEntryCore x with
    | error err => rw [hcx] at h; simp at h
    | ok p =>
      obtain ⟨valid, err⟩ := p
      rw [hcx] at h
      cases hrest : cleanLoop rest (i + 1) with
      | error e2 => rw [hrest] at h; simp at h
      | ok cw =>
        obtain ⟨c1, w1⟩ := cw
        rw [hrest] at h
        cases valid with
        | false =>
          simp only [pure, Except.pure] at h
          obtain ⟨hc, _⟩ := Prod.mk.inj (Except.ok.inj h)
          subst hc
          exact ih _ _ _ hrest item hm
        | true =>
          simp only [pure, Except.pure] at h
          obtain ⟨hc, _⟩ := Prod.mk.inj (Except.ok.inj h)
          subst hc
          rcases List.mem_cons.mp hm with hx | hmem
          · subst hx
            exact ⟨err, hcx⟩
          · exact ih _ _ _ hrest item hmem

/-- A list of entries that all pass `validate_schedule_entry` is a fixed
point of the clean loop: nothing further is dropped and no warning is
produced. -/
theorem cleanLoop_fixed :
    ∀ (l : List SchedItem),
    (∀ item ∈ l, ∃ oe, validateScheduleEntryCore item = .ok (true, oe)) →
    ∀ i, cleanLoop l i = .ok (l, []) := by
  intro l
  induction l with
  | nil => intro _ _; rfl
  | cons x rest ih =>
    intro h i
    obtain ⟨oe, hx⟩ := h x (List.mem_cons_self x rest)
    have hr := ih (fun it hit => h it (List.mem_cons_of_mem x hit)) (i + 1)
    simp only [cleanLoop, hx, hr, bind, Except.bind]
    rfl

/-- Claim C8: `clean_schedule` is idempotent on its cleaned output — every
kept entry individually passes `validate_schedule_entry`, so cleaning the
cleaned list again keeps exactly the same list (set-level warnings may
persist but remove nothing). -/
theorem clean_schedule_idempotent (entries c : List SchedItem) (w : List VError)
    (h : cleanSchedule entries = .ok (c, w)) :
    (∀ item ∈ c, validateScheduleEntry item none = .ok (true, none)) ∧
    ∃ w2, cleanSchedule c = .ok (c, w2) := by
  simp only [cleanSchedule, bind, Except.bind] at h
  cases hloop : cleanLoop entries 0 with
  | error e => rw [hloop] at h; simp at h
  | ok cw =>
    obtain ⟨c0, w0⟩ := cw
    rw [hloop] at h
    simp only [] at h
    have hkept := cleanLoop_kept entries 0 c0 w0 hloop
    have hentry : ∀ hc : c = c0, ∀ item ∈ c, validateScheduleEntry item none = .ok (true, none) := by
      intro hc item hm
      obtain ⟨oe, hco⟩ := hkept item (hc ▸ hm)
      have hoe := core_true_oe_none item oe hco
      subst hoe
      simp [validateScheduleEntry, hco, Except.map]
    by_cases hc0 : c0.isEmpty
    · rw [if_pos hc0] at h
      simp only [pure, Except.pure] at h
      obtain ⟨hc, hw⟩ := Prod.mk.inj (Except.ok.inj h)
      have hnil : c0 = [] := List.isEmpty_iff.mp hc0
      refine ⟨hentry hc.symm, [], ?_⟩
      rw [← hc, hnil]
      rfl
    · rw [if_neg hc0] at h
      cases hv : validateSchedule c0 with
      | error e => rw [hv] at h; simp at h
      | ok p =>
        obtain ⟨vb, verrs⟩ := p
        rw [hv] at h
        have hc : c = c0 := by
          cases vb with
          | false =>
            simp only [if_neg (Bool.false_ne_true), pure, Except.pure] at h
            exact (Prod.mk.inj (Except.ok.inj h)).1.symm
          | true =>
            simp only [if_pos rfl, pure, Except.pure] at h
            exact (Prod.mk.inj (Except.ok.inj h)).1.symm
        have hfix : cleanLoop c 0 = .ok (c, []) :=
          cleanLoop_fixed c (fun it hit => hkept it (hc ▸ hit)) 0
        refine ⟨hentry hc, ?_⟩
        have hvc : validateSchedule c = .ok (vb, verrs) := hc ▸ hv
        have hcne : c.isEmpty = false := by
          rw [hc]
          exact Bool.not_eq_true _ ▸ (by simpa using hc0)
        cases vb with
        | true =>
          exact ⟨[], by simp [cleanSchedule, hfix, hcne, hvc, bind, Except.bind, pure, Except.pure]⟩
        | false =>
          exact ⟨verrs, by simp [cleanSchedule, hfix, hcne, hvc, bind, Except.bind, pure, Except.pure]⟩

/-- Keys-ordered relation used for sortedness by start instant. -/
def sLe (p q : PTime) : Prop := p.s.us ≤ q.s.us

/-- Adjacent-pair no-overlap condition of the sweep. -/
def adjOk (p q : PTime) : Prop := p.e.us ≤ q.s.us

/-- Two half-open interval rows genuinely overlap. -/
def overlapUs (p q : PTime) : Prop := max p.s.us q.s.us < min p.e.us q.e.us

instance (p q : PTime) : Decidable (overlapUs p q) := by
  unfold overlapUs
  infer_instance

/-- All rows carry the same awareness flag on both endpoints, so every
comparison the sort and the sweeps perform is exception-free. -/
def uniformAware (b : Bool) (l : List PTime) : Prop :=
  ∀ p ∈ l, p.s.aware = b ∧ p.e.aware = b

/-- Monadic insertion into a sorted accumulator succeeds when all keys are
comparable, permutes, and preserves sortedness. -/
theorem insertByStart_ok (b : Bool) (x : PTime) (hx : x.s.aware = b) :
    ∀ l : List PTime, (∀ p ∈ l, p.s.aware = b) → List.Pairwise sLe l →
    ∃ r, insertByStart x l = .ok r ∧ r.Perm (x :: l) ∧ List.Pairwise sLe r := by
  intro l
  induction l with
  | nil =>
    intro _ _
    exact ⟨[x], rfl, List.Perm.refl _, List.pairwise_singleton _ _⟩
  | cons y ys ih =>
    intro hawl hsort
    have hy : y.s.aware = b := hawl y (List.mem_cons_self y ys)
    have hcmp : dtmLt x.s y.s = .ok (decide (x.s.us < y.s.us)) := by
      simp [dtmLt, hx, hy]
    by_cases hlt : x.s.us < y.s.us
    · refine ⟨x :: y :: ys, ?_, List.Perm.refl _, ?_⟩
      · simp [insertByStart, hcmp, bind, Except.bind, hlt, pure, Except.pure]
      · refine List.Pairwise.cons ?_ hsort
        intro z hz
        rcases List.mem_cons.mp hz with hz | hz
        · subst hz
          exact le_of_lt hlt
        · have hyz : sLe y z := (List.pairwise_cons.mp hsort).1 z hz
          exact le_trans (le_of_lt hlt) hyz
    · obtain ⟨r, hr, hperm, hsortr⟩ :=
        ih (fun p hp => hawl p (List.mem_cons_of_mem y hp)) (List.pairwise_cons.mp hsort).2
      refine ⟨y :: r, ?_, ?_, ?_⟩
      · simp [insertByStart, hcmp, bind, Except.bind, hlt, hr, pure, Except.pure]
      · exact (List.Perm.cons y hperm).trans (List.Perm.swap x y ys)
      · refine List.Pairwise.cons ?_ hsortr
        intro z hz
        rcases List.mem_cons.mp (hperm.mem_iff.mp hz) with hz2 | hz2
        · subst hz2
          exact le_of_not_lt hlt
        · exact (List.pairwise_cons.mp hsort).1 z hz2

/-- The fold underlying `sortByStart`, generalized over the accumulator. -/
theorem sortByStart_go (b : Bool) :
    ∀ (l acc : List PTime), (∀ p ∈ l, p.s.aware = b) → (∀ p ∈ acc, p.s.aware = b) →
    List.Pairwise sLe acc →
    ∃ r, List.foldlM (fun a x => insertByStart x a) acc l = .ok r ∧
      r.Perm (acc ++ l) ∧ List.Pairwise sLe r := by
  intro l
  induction l with
  | nil =>
    intro acc _ _ hsort
    exact ⟨acc, rfl, by simp, hsort⟩
  | cons x xs ih =>
    intro acc hl hacc hsort
    obtain ⟨r1, h1, hperm1, hsort1⟩ :=
      insertByStart_ok b x (hl x (List.mem_cons_self x xs)) acc hacc hsort
    have hr1aw : ∀ p ∈ r1, p.s.aware = b := by
      intro p hp
      rcases List.mem_cons.mp (hperm1.mem_iff.mp hp) with hp2 | hp2
      · rw [hp2]
        exact hl x (List.mem_cons_self x xs)
      · exact hacc p hp2
    obtain ⟨r, hr, hperm, hsortr⟩ :=
      ih r1 (fun p hp => hl p (List.mem_cons_of_mem x hp)) hr1aw hsort1
    refine ⟨r, ?_, ?_, hsortr⟩
    · simp [List.foldlM, h1, bind, Except.bind, hr]
    · exact (hperm.trans (hperm1.append_right xs)).trans List.perm_middle.symm

/-- `sorted(..., key=start)` over mutually comparable keys succeeds with a
permutation sorted by start instant. -/
theorem sortByStart_ok (b : Bool) (l : List PTime) (h : ∀ p ∈ l, p.s.aware = b) :
    ∃ r, sortByStart l = .ok r ∧ r.Perm l ∧ List.Pairwise sLe r := by
  obtain ⟨r, hr, hperm, hsort⟩ :=
    sortByStart_go b l [] h (by intro p hp; simp at hp) (List.Pairwise.nil)
  exact ⟨r, hr, by simpa using hperm, hsort⟩

/-- The overlap sweep raises nothing over a uniformly-aware list. -/
theorem overlapSweep_ok (b : Bool) :
    ∀ l : List PTime, uniformAware b l → ∃ errs, overlapSweep l = .ok errs := by
  intro l
  induction l with
  | nil => intro _; exact ⟨[], rfl⟩
  | cons p tail ih =>
    intro huni
    cases tail with
    | nil => exact ⟨[], rfl⟩
    | cons q rest =>
      obtain ⟨errs, herrs⟩ := ih (fun z hz => huni z (List.mem_cons_of_mem p hz))
      have hpe : p.e.aware = b := (huni p (List.mem_cons_self _ _)).2
      have hqs : q.s.aware = b :=
        (huni q (List.mem_cons_of_mem p (List.mem_cons_self _ _))).1
      by_cases hg : q.s.us < p.e.us
      · exact ⟨VError.overlap p.idx q.idx :: errs,
          by simp [overlapSweep, dtmGt, hpe, hqs, herrs, hg, bind, Except.bind,
            pure, Except.pure]⟩
      · exact ⟨errs,
          by simp [overlapSweep, dtmGt, hpe, hqs, herrs, hg, bind, Except.bind,
            pure, Except.pure]⟩

/-- Inversion for a successful datetime `>` comparison. -/
theorem dtmGt_ok_inv (a b : Dtm) (g : Bool) (h : dtmGt a b = .ok g) :
    a.aware = b.aware ∧ g = decide (b.us < a.us) := by
  unfold dtmGt at h
  by_cases hw : a.aware = b.aware
  · rw [if_pos hw] at h
    exact ⟨hw, (Except.ok.inj h).symm⟩
  · rw [if_neg hw] at h
    cases h

/-- A sweep that reports nothing certifies the adjacent-pair no-overlap
chain. -/
theorem overlapSweep_nil_adj :
    ∀ l : List PTime, overlapSweep l = .ok [] → List.Chain' adjOk l := by
  intro l
  induction l with
  | nil => intro _; exact List.chain'_nil
  | cons p tail ih =>
    intro h
    cases tail with
    | nil => exact List.chain'_singleton p
    | cons q rest =>
      simp only [overlapSweep, bind, Except.bind] at h
      cases hg : dtmGt p.e q.s with
      | error e => rw [hg] at h; simp at h
      | ok g =>
        rw [hg] at h
        cases hs : overlapSweep (q :: rest) with
        | error e => rw [hs] at h; simp at h
        | ok tl =>
          rw [hs] at h
          simp only [pure, Except.pure] at h
          have htl : (if g = true then VError.overlap p.idx q.idx :: tl else tl) = [] :=
            Except.ok.inj h
          have hgf : g = false := by
            cases g with
            | true => simp at htl
            | false => rfl
          have htl2 : tl = [] := by
            rw [hgf] at htl
            simpa using htl
          have hadj : adjOk p q := by
            obtain ⟨_, hgd⟩ := dtmGt_ok_inv p.e q.s g hg
            rw [hgf] at hgd
            exact le_of_not_lt (of_decide_eq_false hgd.symm)
          exact List.chain'_cons.mpr ⟨hadj, ih (htl2 ▸ hs)⟩

/-- Every error the sweep reports comes from an adjacent sorted pair that
does overlap, and names that pair's original indices. -/
theorem overlapSweep_mem :
    ∀ (l : List PTime) (errs : List VError), overlapSweep l = .ok errs → ∀ v ∈ errs,
    ∃ l1 p q l2, l = l1 ++ p :: q :: l2 ∧ v = VError.overlap p.idx q.idx ∧
      q.s.us < p.e.us := by
  intro l
  induction l with
  | nil =>
    intro errs h v hv
    simp only [overlapSweep, pure, Except.pure] at h
    rw [← Except.ok.inj h] at hv
    simp at hv
  | cons p tail ih =>
    intro errs h v hv
    cases tail with
    | nil =>
      simp only [overlapSweep, pure, Except.pure] at h
      rw [← Except.ok.inj h] at hv
      simp at hv
    | cons q rest =>
      simp only [overlapSweep, bind, Except.bind] at h
      cases hg : dtmGt p.e q.s with
      | error e => rw [hg] at h; simp at h
      | ok g =>
        rw [hg] at h
        cases hs : overlapSweep (q :: rest) with
        | error e => rw [hs] at h; simp at h
        | ok tl =>
          rw [hs] at h
          simp only [pure, Except.pure] at h
          have herrs : errs = (if g = true then VError.overlap p.idx q.idx :: tl else tl) :=
            (Except.ok.inj h).symm
          have hglt : g = true → q.s.us < p.e.us := by
            intro hgt
            obtain ⟨_, hgd⟩ := dtmGt_ok_inv p.e q.s g hg
            rw [hgt] at hgd
            exact of_decide_eq_true hgd.symm
          have htail : ∀ w ∈ tl, ∃ l1 p2 q2 l2,
              p :: q :: rest = l1 ++ p2 :: q2 :: l2 ∧ w = VError.overlap p2.idx q2.idx ∧
              q2.s.us < p2.e.us := by
            intro w hw
            obtain ⟨l1, p2, q2, l2, hdec, hform, hlt2⟩ := ih tl hs w hw
            exact ⟨p :: l1, p2, q2, l2, by rw [hdec]; rfl, hform, hlt2⟩
          rw [herrs] at hv
          cases g with
          | false =>
            simp only [Bool.false_eq_true, if_false] at hv
            exact htail v hv
          | true =>
            simp only [if_pos rfl] at hv
            rcases List.mem_cons.mp hv with hvh | hvt
            · exact ⟨[], p, q, rest, rfl, hvh, hglt rfl⟩
            · exact htail v hvt

/-- The chain of adjacent no-overlap conditions over a sorted list whose
intervals are individually non-degenerate extends to all pairs in order:
the key step behind sufficiency of the adjacent-pair sweep. -/
theorem chain_adj_pairwise :
    ∀ l : List PTime, List.Chain' adjOk l → (∀ x ∈ l, x.s.us < x.e.us) →
    List.Pairwise adjOk l := by
  intro l
  induction l with
  | nil => intro _ _; exact List.Pairwise.nil
  | cons p tail ih =>
    intro hchain hse
    have htailpw : List.Pairwise adjOk tail :=
      ih hchain.tail (fun x hx => hse x (List.mem_cons_of_mem p hx))
    refine List.Pairwise.cons ?_ htailpw
    intro z hz
    cases tail with
    | nil => simp at hz
    | cons q rest =>
      have hpq : adjOk p q := (List.chain'_cons.mp hchain).1
      rcases List.mem_cons.mp hz with hz2 | hz2
      · subst hz2
        exact hpq
      · have hqz : adjOk q z := (List.pairwise_cons.mp htailpw).1 z hz2
        have hqse : q.s.us < q.e.us :=
          hse q (List.mem_cons_of_mem p (List.mem_cons_self q rest))
        unfold adjOk at hpq hqz ⊢
        omega

/-- In a pairwise-related list, two distinct members are related one way or
the other. -/
theorem pairwise_mem_rel {α : Type} {R : α → α → Prop} (l : List α)
    (h : List.Pairwise R l) (a : α) (ha : a ∈ l) (b : α) (hb : b ∈ l) (hne : a ≠ b) :
    R a b ∨ R b a := by
  have hsym : Symmetric (fun x y => R x y ∨ R y x) := fun x y hxy => hxy.symm
  exact (h.imp (fun hr => Or.inl hr)).forall hsym ha hb hne

/-- The sequential sweep raises nothing over a uniformly-aware list. -/
theorem sequentialSweep_ok (b : Bool) :
    ∀ l : List PTime, uniformAware b l → ∃ errs, sequentialSweep l = .ok errs := by
  intro l
  induction l with
  | nil => intro _; exact ⟨[], rfl⟩
  | cons p tail ih =>
    intro huni
    cases tail with
    | nil => exact ⟨[], rfl⟩
    | cons q rest =>
      obtain ⟨errs, herrs⟩ := ih (fun z hz => huni z (List.mem_cons_of_mem p hz))
      have hpe : p.e.aware = b := (huni p (List.mem_cons_self _ _)).2
      have hqs : q.s.aware = b :=
        (huni q (List.mem_cons_of_mem p (List.mem_cons_self _ _))).1
      have hawqp : q.s.aware = p.e.aware := by rw [hqs, hpe]
      by_cases heq : p.e = q.s
      · exact ⟨errs, by simp [sequentialSweep, heq, herrs]⟩
      · by_cases hgap : q.s.us - p.e.us > 0
        · exact ⟨VError.gapWarning p.idx q.idx (q.s.us - p.e.us) :: errs,
            by simp [sequentialSweep, heq, dtmSub, hpe, hqs, hgap, herrs,
              bind, Except.bind, pure, Except.pure]⟩
        · exact ⟨VError.overlapWarning p.idx q.idx (p.e.us - q.s.us) :: errs,
            by simp [sequentialSweep, heq, dtmSub, hpe, hqs, hgap, herrs,
              bind, Except.bind, pure, Except.pure]⟩

/-- Successful timestamp validation certifies that both stamps parse to
comparable instants with `start < end`. -/
theorem validateTimestampsCore_true (st et : TVal) (oe : Option EErr)
    (h : validateTimestampsCore st et = .ok (true, oe)) :
    ∃ sd ed, parseTimestamp st = .ok sd ∧ parseTimestamp et = .ok ed ∧
      sd.aware = ed.aware ∧ sd.us < ed.us := by
  unfold validateTimestampsCore at h
  cases hps : parseTimestamp st with
  | error e1 =>
    rw [hps] at h
    cases e1 with
    | valueError => simp [catchVE, bind, Except.bind, pure, Except.pure] at h
    | typeError => simp [catchVE, bind, Except.bind, pure, Except.pure] at h
  | ok sd =>
    rw [hps] at h
    cases hpe : parseTimestamp et with
    | error e1 =>
      rw [hpe] at h
      cases e1 with
      | valueError => simp [catchVE, bind, Except.bind, pure, Except.pure] at h
      | typeError => simp [catchVE, bind, Except.bind, pure, Except.pure] at h
    | ok ed =>
      rw [hpe] at h
      simp only [catchVE, bind, Except.bind, pure, Except.pure] at h
      unfold dtmLe dtmSub at h
      by_cases hawe : ed.aware = sd.aware
      · rw [if_pos hawe] at h
        simp only [bind, Except.bind] at h
        by_cases hle : ed.us ≤ sd.us
        · simp [hle, pure, Except.pure] at h
        · refine ⟨sd, ed, rfl, rfl, hawe.symm, by omega⟩
      · rw [if_neg hawe] at h
        simp at h

/-- A fully successful entry validation certifies parseable, comparable,
properly ordered timestamps for that entry. -/
theorem validateScheduleEntryCore_true (item : SchedItem) (oe : Option EErr)
    (h : validateScheduleEntryCore item = .ok (true, oe)) :
    ∃ st et, entryTimes item = some (st, et) ∧
      ∃ sd ed, parseTimestamp st = .ok sd ∧ parseTimestamp et = .ok ed ∧
        sd.aware = ed.aware ∧ sd.us < ed.us := by
  cases item with
  | nondict => simp [validateScheduleEntryCore, pure, Except.pure] at h
  | dict e =>
    obtain ⟨fs, fe, fm, fr⟩ := e
    cases fs with
    | none => simp [validateScheduleEntryCore, pure, Except.pure] at h
    | some st =>
    cases fe with
    | none => simp [validateScheduleEntryCore, pure, Except.pure] at h
    | some et =>
    cases fm with
    | none => simp [validateScheduleEntryCore, pure, Except.pure] at h
    | some m =>
    cases fr with
    | none => simp [validateScheduleEntryCore, pure, Except.pure] at h
    | some r =>
      simp only [validateScheduleEntryCore, bind, Except.bind] at h
      cases hts : validateTimestampsCore st et with
      | error err => rw [hts] at h; simp at h
      | ok p =>
        obtain ⟨b1, e1⟩ := p
        rw [hts] at h
        cases b1 with
        | false => simp [pure, Except.pure] at h
        | true =>
          obtain ⟨sd, ed, hps, hpe, haw, hlt⟩ := validateTimestampsCore_true st et e1 hts
          exact ⟨st, et, rfl, sd, ed, hps, hpe, haw, hlt⟩

/-- Rows collected by the validation loop start at or after the loop's base
index and describe comparable, properly ordered intervals. -/
theorem validateLoop_pts :
    ∀ (l : List SchedItem) (i : Nat) (errs : List VError) (pts : List PTime),
    validateLoop l i = .ok (errs, pts) →
    ∀ p ∈ pts, i ≤ p.idx ∧ p.s.aware = p.e.aware ∧ p.s.us < p.e.us := by
  intro l
  induction l with
  | nil =>
    intro i errs pts h p hp
    simp only [validateLoop, pure, Except.pure] at h
    obtain ⟨_, hpts⟩ := Prod.mk.inj (Except.ok.inj h)
    subst hpts
    simp at hp
  | cons item rest ih =>
    intro i errs pts h p hp
    simp only [validateLoop, bind, Except.bind] at h
    cases hcore : validateScheduleEntryCore item with
    | error err =>
      rw [show validateScheduleEntry item (some i) = .error err by
        simp [validateScheduleEntry, hcore, Except.map]] at h
      simp at h
    | ok pr =>
      obtain ⟨valid, oe⟩ := pr
      rw [show validateScheduleEntry item (some i) =
          .ok (valid, oe.map (VError.entry (some i))) by
        simp [validateScheduleEntry, hcore, Except.map]] at h
      simp only [] at h
      cases valid with
      | false =>
        simp only [Bool.false_eq_true, if_false] at h
        cases hrest : validateLoop rest (i + 1) with
        | error e2 => rw [hrest] at h; simp at h
        | ok ep =>
          obtain ⟨errs2, pts2⟩ := ep
          rw [hrest] at h
          simp only [pure, Except.pure] at h
          obtain ⟨_, hpts⟩ := Prod.mk.inj (Except.ok.inj h)
          subst hpts
          obtain ⟨hge, hrest2⟩ := ih (i + 1) errs2 pts2 hrest p hp
          exact ⟨by omega, hrest2⟩
      | true =>
        rw [if_pos rfl] at h
        obtain ⟨st, et, htimes, sd, ed, hps, hpe, haw, hlt⟩ :=
          validateScheduleEntryCore_true item oe hcore
        rw [htimes] at h
        simp only [] at h
        rw [hps] at h
        simp only [bind, Except.bind] at h
        rw [hpe] at h
        simp only [catchVE, bind, Except.bind, pure, Except.pure] at h
        cases hrest : validateLoop rest (i + 1) with
        | error e2 => rw [hrest] at h; simp at h
        | ok ep =>
          obtain ⟨errs2, pts2⟩ := ep
          rw [hrest] at h
          simp only [] at h
          obtain ⟨_, hpts⟩ := Prod.mk.inj (Except.ok.inj h)
          subst hpts
          rcases List.mem_cons.mp hp with hph | hpt
          · rw [hph]
            exact ⟨le_refl i, haw, hlt⟩
          · obtain ⟨hge, hrest2⟩ := ih (i + 1) errs2 pts2 hrest p hpt
            exact ⟨by omega, hrest2⟩

/-- The loop indices recorded in `parsed_times` are strictly increasing, so
no two rows share an original index. -/
theorem validateLoop_idx_pairwise :
    ∀ (l : List SchedItem) (i : Nat) (errs : List VError) (pts : List PTime),
    validateLoop l i = .ok (errs, pts) →
    List.Pairwise (fun p q : PTime => p.idx < q.idx) pts := by
  intro l
  induction l with
  | nil =>
    intro i errs pts h
    simp only [validateLoop, pure, Except.pure] at h
    obtain ⟨_, hpts⟩ := Prod.mk.inj (Except.ok.inj h)
    subst hpts
    exact List.Pairwise.nil
  | cons item rest ih =>
    intro i errs pts h
    simp only [validateLoop, bind, Except.bind] at h
    cases hcore : validateScheduleEntryCore item with
    | error err =>
      rw [show validateScheduleEntry item (some i) = .error err by
        simp [validateScheduleEntry, hcore, Except.map]] at h
      simp at h
    | ok pr =>
      obtain ⟨valid, oe⟩ := pr
      rw [show validateScheduleEntry item (some i) =
          .ok (valid, oe.map (VError.entry (some i))) by
        simp [validateScheduleEntry, hcore, Except.map]] at h
      simp only [] at h
      cases valid with
      | false =>
        simp only [Bool.false_eq_true, if_false] at h
        cases hrest : validateLoop rest (i + 1) with
        | error e2 => rw [hrest] at h; simp at h
        | ok ep =>
          obtain ⟨errs2, pts2⟩ := ep
          rw [hrest] at h
          simp only [pure, Except.pure] at h
          obtain ⟨_, hpts⟩ := Prod.mk.inj (Except.ok.inj h)
          subst hpts
          exact ih (i + 1) errs2 pts2 hrest
      | true =>
        rw [if_pos rfl] at h
        obtain ⟨st, et, htimes, sd, ed, hps, hpe, _, _⟩ :=
          validateScheduleEntryCore_true item oe hcore
        rw [htimes] at h
        simp only [] at h
        rw [hps] at h
        simp only [bind, Except.bind] at h
        rw [hpe] at h
        simp only [catchVE, bind, Except.bind, pure, Except.pure] at h
        cases hrest : validateLoop rest (i + 1) with
        | error e2 => rw [hrest] at h; simp at h
        | ok ep =>
          obtain ⟨errs2, pts2⟩ := ep
          rw [hrest] at h
          simp only [] at h
          obtain ⟨_, hpts⟩ := Prod.mk.inj (Except.ok.inj h)
          subst hpts
          refine List.Pairwise.cons ?_ (ih (i + 1) errs2 pts2 hrest)
          intro q hq
          have := (validateLoop_pts rest (i + 1) errs2 pts2 hrest q hq).1
          simpa using by omega

/-- Claim C2: whenever every entry passes the per-entry checks (the loop
reports no errors and collects `parsed_times` rows `pts`), all rows are
mutually comparable, and some two distinct rows genuinely overlap, then
`validate_schedule` returns `ok = false` and its error list contains an
overlap error naming the original indices of two genuinely overlapping
entries — whatever the input order, since sorting is internal.  The
adjacent-pair sweep suffices: if no adjacent pair in sorted-by-start order
overlapped, the chained bound `end[k] ≤ start[k+1] < end[k+1] ≤ ...` would
preclude any overlapping pair at all. -/
theorem validate_schedule_detects_overlaps
    (schedule : List SchedItem) (pts : List PTime)
    (hloop : validateLoop schedule 0 = .ok ([], pts))
    (haw : ∀ p ∈ pts, ∀ q ∈ pts, p.s.aware = q.s.aware)
    (p0 q0 : PTime) (hp0 : p0 ∈ pts) (hq0 : q0 ∈ pts) (hne : p0 ≠ q0)
    (hov : overlapUs p0 q0) :
    ∃ errs, validateSchedule schedule = .ok (false, errs) ∧
      ∃ i j, VError.overlap i j ∈ errs ∧ i ≠ j ∧
        ∃ p q, p ∈ pts ∧ q ∈ pts ∧ p.idx = i ∧ q.idx = j ∧ overlapUs p q := by
  have hfacts := validateLoop_pts schedule 0 [] pts hloop
  have hidx := validateLoop_idx_pairwise schedule 0 [] pts hloop
  have huni : uniformAware p0.s.aware pts := by
    intro p hp
    refine ⟨haw p hp p0 hp0, ?_⟩
    rw [← (hfacts p hp).2.1]
    exact haw p hp p0 hp0
  have hsne : schedule ≠ [] := by
    intro hnil
    subst hnil
    simp only [validateLoop, pure, Except.pure] at hloop
    obtain ⟨_, hpts⟩ := Prod.mk.inj (Except.ok.inj hloop)
    rw [← hpts] at hp0
    simp at hp0
  obtain ⟨L, hL, hLperm, hLsort⟩ :=
    sortByStart_ok p0.s.aware pts (fun p hp => (huni p hp).1)
  have hLuni : uniformAware p0.s.aware L := fun p hp => huni p (hLperm.mem_iff.mp hp)
  obtain ⟨oerrs, hoerrs⟩ := overlapSweep_ok p0.s.aware L hLuni
  obtain ⟨serrs, hserrs⟩ := sequentialSweep_ok p0.s.aware L hLuni
  have hselt : ∀ x ∈ L, x.s.us < x.e.us :=
    fun x hx => (hfacts x (hLperm.mem_iff.mp hx)).2.2
  have hone : oerrs ≠ [] := by
    intro hnil2
    have hchain := overlapSweep_nil_adj L (hnil2 ▸ hoerrs)
    have hpw := chain_adj_pairwise L hchain hselt
    have hmemp : p0 ∈ L := hLperm.mem_iff.mpr hp0
    have hmemq : q0 ∈ L := hLperm.mem_iff.mpr hq0
    have hq0p0 : q0.s.us < p0.e.us :=
      lt_of_le_of_lt (le_max_right _ _) (lt_of_lt_of_le hov (min_le_left _ _))
    have hp0q0 : p0.s.us < q0.e.us :=
      lt_of_le_of_lt (le_max_left _ _) (lt_of_lt_of_le hov (min_le_right _ _))
    rcases pairwise_mem_rel L hpw p0 hmemp q0 hmemq hne with hr | hr
    · exact lt_irrefl _ (lt_of_lt_of_le hq0p0 hr)
    · exact lt_irrefl _ (lt_of_lt_of_le hp0q0 hr)
  obtain ⟨v, hv⟩ : ∃ v, v ∈ oerrs := by
    cases oerrs with
    | nil => exact absurd rfl hone
    | cons a t => exact ⟨a, List.mem_cons_self a t⟩
  obtain ⟨l1, p, q, l2, hdecomp, hvform, hqp⟩ := overlapSweep_mem L oerrs hoerrs v hv
  have hpL : p ∈ L := by rw [hdecomp]; simp
  have hqL : q ∈ L := by rw [hdecomp]; simp
  have hpp : p ∈ pts := hLperm.mem_iff.mp hpL
  have hqq : q ∈ pts := hLperm.mem_iff.mp hqL
  have hsub : [p, q].Sublist L := by
    rw [hdecomp]
    have h1 : [p, q].Sublist (p :: q :: l2) :=
      List.Sublist.cons₂ p (List.Sublist.cons₂ q (List.nil_sublist l2))
    exact h1.trans (List.sublist_append_right l1 (p :: q :: l2))
  have hple : sLe p q := by
    have hpw2 : List.Pairwise sLe [p, q] := hLsort.sublist hsub
    exact (List.pairwise_cons.mp hpw2).1 q (List.mem_cons_self q [])
  have hovpq : overlapUs p q := by
    unfold overlapUs
    have h2 : q.s.us < q.e.us := hselt q hqL
    rw [max_eq_right hple]
    exact lt_min hqp h2
  have hnodup : pts.Nodup := by
    refine hidx.imp ?_
    intro a b hlt heq
    rw [heq] at hlt
    exact lt_irrefl _ hlt
  have hLnd : L.Nodup := (hLperm.nodup_iff).mpr hnodup
  have hpqne : p ≠ q := by
    have hpw2 : List.Pairwise (fun a b : PTime => a ≠ b) [p, q] := hLnd.sublist hsub
    exact (List.pairwise_cons.mp hpw2).1 q (List.mem_cons_self q [])
  have hij : p.idx ≠ q.idx := by
    rcases pairwise_mem_rel pts hidx p hpp q hqq hpqne with h | h
    · exact ne_of_lt h
    · exact (ne_of_lt h).symm
  have hempty : schedule.isEmpty = false := by
    cases schedule with
    | nil => exact absurd rfl hsne
    | cons a l => rfl
  have hco : checkOverlaps pts = .ok oerrs := by
    simp [checkOverlaps, hL, hoerrs, bind, Except.bind]
  have hcs : checkSequential pts = .ok serrs := by
    simp [checkSequential, hL, hserrs, bind, Except.bind]
  have hallne : (oerrs ++ serrs).isEmpty = false := by
    cases oerrs with
    | nil => exact absurd rfl hone
    | cons a t => rfl
  refine ⟨oerrs ++ serrs, ?_, p.idx, q.idx, ?_, hij, p, q, hpp, hqq, rfl, rfl, hovpq⟩
  · simp [validateSchedule, hempty, hloop, bind, Except.bind, hco, hcs,
      pure, Except.pure, hallne]
  · exact List.mem_append_left serrs (hvform ▸ hv)

/-- Two overlapping well-typed entries, deliberately given in reverse start
order (`00:50–01:40` first, `00:00–01:00` second). -/
def overlapSchedule : List SchedItem := [entryZ 3000 6000 1 100, entryZ 0 3600 2 50]

/-- The `parsed_times` rows of `overlapSchedule`. -/
def overlapPts : List PTime :=
  [⟨⟨false, 3000000000⟩, ⟨false, 6000000000⟩, 0⟩, ⟨⟨false, 0⟩, ⟨false, 3600000000⟩, 1⟩]

/-- Witness for the overlap-detection theorem at `overlapSchedule`. -/
theorem validate_schedule_detects_overlaps_witness :
    ∃ errs, validateSchedule overlapSchedule = .ok (false, errs) ∧
      ∃ i j, VError.overlap i j ∈ errs ∧ i ≠ j ∧
        ∃ p q, p ∈ overlapPts ∧ q ∈ overlapPts ∧ p.idx = i ∧ q.idx = j ∧ overlapUs p q :=
  validate_schedule_detects_overlaps overlapSchedule overlapPts (by decide)
    (by decide) ⟨⟨false, 3000000000⟩, ⟨false, 6000000000⟩, 0⟩
    ⟨⟨false, 0⟩, ⟨false, 3600000000⟩, 1⟩ (by decide) (by decide) (by decide) (by decide)

/-- A schedule with one valid and one inverted entry. -/
def cleanSample : List SchedItem := [entryZ 0 1800 1 100, entryZ 0 0 1 100]

/-- Witness for idempotence of `clean_schedule` at a schedule with one
valid entry and one inverted entry: the first clean keeps exactly the valid
entry, and cleaning the kept list drops nothing. -/
theorem clean_schedule_idempotent_witness :
    (∀ item ∈ [entryZ 0 1800 1 100], validateScheduleEntry item none = .ok (true, none)) ∧
    ∃ w2, cleanSchedule [entryZ 0 1800 1 100] = .ok ([entryZ 0 1800 1 100], w2) :=
  clean_schedule_idempotent cleanSample [entryZ 0 1800 1 100]
    [VError.dropped 1 (some EErr.startNotBeforeEnd)] (by decide)

/-- Two daemon entries whose windows both contain the 50-second mark. -/
def overlappingWindows : List DEntry :=
  [⟨TsStr.iso 0 none TSuffix.plain, TsStr.iso 100 none TSuffix.plain, 1, 100⟩,
   ⟨TsStr.iso 0 none TSuffix.plain, TsStr.iso 200 none TSuffix.plain, 2, 50⟩]

/-- Witness for the first-match theorem at a tick where both windows of
`overlappingWindows` contain `now`. -/
theorem check_and_execute_dispatches_first_active_witness :
    ∃ res, checkAndExecute ⟨false, 50000000⟩ overlappingWindows = .ok res ∧
      (res = none → ∀ j e, overlappingWindows.get? j = some e →
        entryActive ⟨false, 50000000⟩ e = false) ∧
      (∀ i e, res = some (i, e) → overlappingWindows.get? i = some e ∧
        entryActive ⟨false, 50000000⟩ e = true ∧
        ∀ j e2, j < i → overlappingWindows.get? j = some e2 →
          entryActive ⟨false, 50000000⟩ e2 = false) :=
  check_and_execute_dispatches_first_active 50000000 overlappingWindows (by decide)
